import Mathlib

/-!
# theft: buffered bit extraction over a reseedable word generator

A shallow embedding of `src/theft_random.c` (`theft_set_seed`, `mask`,
`theft_random_bits`, `theft_random`, `theft_random_double`).  Machine integers are
natural numbers;
`uint64_t` arithmetic is reduced modulo `2 ^ 64` and `uint8_t` arithmetic
modulo `256` exactly where the C code computes in those types.
-/

namespace Theft

/-- Modelled from the spec: the Word Source of `theft_mt.h` (its code is not part of
the sources read here).  `theft_mt_reset` reinitialises the word sequence
deterministically for a seed, whatever the generator held before (`reset_restarts`);
`theft_mt_random` returns the next `uint64_t` word together with the advanced
generator (`random_lt`).  Beside the Word Source the record carries `shr_full`, the
value a platform leaves in a `uint64_t` that is shifted right by the full width 64:
C does not define it, so nothing is assumed about it. -/
structure Env (σ : Type) where
  theft_mt_reset : σ → Nat → σ
  theft_mt_random : σ → Nat × σ
  shr_full : Nat → Nat
  reset_restarts : ∀ (m₁ m₂ : σ) (seed : Nat), theft_mt_reset m₁ seed = theft_mt_reset m₂ seed
  random_lt : ∀ m : σ, (theft_mt_random m).1 < 2 ^ 64

/-- The fields of `struct theft` that `theft_random.c` reads and writes. -/
structure theft (σ : Type) where
  seed : Nat
  prng_buf : Nat
  bits_available : Nat
  mt : σ

/-- `theft_set_seed`, lines 16-22. -/
def theft_set_seed {σ : Type} (E : Env σ) (t : theft σ) (seed : Nat) : theft σ :=
  { seed := seed
    prng_buf := seed
    bits_available := 64
    mt := E.theft_mt_reset t.mt seed }

/-- `mask`, lines 24-30: `~(uint64_t)0` for 64, else `(1LLU << bits) - 1` in
`uint64_t` arithmetic.  Past the assertion of `theft_random_bits` the argument is at
most 64, so the shift amount here stays below 64. -/
def mask (bits : Nat) : Nat :=
  if bits = 64 then 2 ^ 64 - 1
  else (((1 <<< bits) % 2 ^ 64) + 2 ^ 64 - 1) % 2 ^ 64

/-- The `uint64_t` right shift `x >> n`: defined by C for `n < 64`; for a wider
amount the value of the platform stands in. -/
def shr64 {σ : Type} (E : Env σ) (x n : Nat) : Nat :=
  if n < 64 then x >>> n else E.shr_full x % 2 ^ 64

/-- The locals and the state of `theft_random_bits` after the `if` of lines 42-51. -/
structure Locals (σ : Type) where
  res : Nat
  shift : Nat
  bit_count : Nat
  t : theft σ

/-- Lines 39-51 of `theft_random_bits`: the drain of the buffered bits and the
refill with one fresh word, taken when fewer bits are buffered than requested. -/
def drain {σ : Type} (E : Env σ) (t : theft σ) (bit_count : Nat) : Locals σ :=
  if t.bits_available < bit_count then
    { res := 0 ||| (t.prng_buf &&& mask t.bits_available)
      shift := (0 + t.bits_available) % 256
      bit_count := (bit_count + 256 - t.bits_available) % 256
      t := { t with
        prng_buf := (E.theft_mt_random t.mt).1
        bits_available := 64
        mt := (E.theft_mt_random t.mt).2 } }
  else
    { res := 0, shift := 0, bit_count := bit_count, t := t }

/-- `theft_random_bits`, lines 34-62.  `none` is the abort of the assertion of
line 35; otherwise the returned value and the state left behind.  The left shift of
line 53 is a `uint64_t` shift (its amount is 0 or the drained count, below 64); the
right shift of line 55 has amount `bit_count`, which can be the full 64. -/
def theft_random_bits {σ : Type} (E : Env σ) (t : theft σ) (bit_count : Nat) :
    Option (Nat × theft σ) :=
  if bit_count ≤ 64 then
    let l := drain E t bit_count
    some (l.res ||| (((l.t.prng_buf &&& mask l.bit_count) <<< l.shift) % 2 ^ 64),
      { l.t with
        bits_available := (l.t.bits_available + 256 - l.bit_count) % 256
        prng_buf := shr64 E l.t.prng_buf l.bit_count })
  else none

/-- `theft_random`, lines 65-67: a draw of `8 * sizeof(uint64_t)` bits. -/
def theft_random {σ : Type} (E : Env σ) (t : theft σ) : Option (Nat × theft σ) :=
  theft_random_bits E t (8 * 8)

/-- The number of calls of `theft_mt_random` that one `theft_random_bits` call
makes: one on the branch of line 42, none otherwise (and none when it aborts). -/
def words_pulled {σ : Type} (t : theft σ) (bit_count : Nat) : Nat :=
  if bit_count ≤ 64 then (if t.bits_available < bit_count then 1 else 0) else 0

/-- Successive `theft_random_bits` calls with the given widths; the results in call
order and the final state, or `none` as soon as one call aborts. -/
def draws {σ : Type} (E : Env σ) (t : theft σ) : List Nat → Option (List Nat × theft σ)
  | [] => some ([], t)
  | w :: ws =>
    match theft_random_bits E t w with
    | none => none
    | some (r, t1) =>
      match draws E t1 ws with
      | none => none
      | some (rs, t2) => some (r :: rs, t2)

/-- The generator after `n` words have been pulled from `m`. -/
def pullN {σ : Type} (E : Env σ) (m : σ) : Nat → σ
  | 0 => m
  | n + 1 => (E.theft_mt_random (pullN E m n)).2

/-- The word returned by the `(j+1)`-th call of `theft_mt_random` starting from `m`. -/
def wordAt {σ : Type} (E : Env σ) (m : σ) (j : Nat) : Nat :=
  (E.theft_mt_random (pullN E m j)).1

/-- Bit `k` of the stream the spec describes: the 64 bits of the seed, least
significant first, then the words of the Word Source after `reset(S)`, each least
significant bit first. -/
def streamBit {σ : Type} (E : Env σ) (m0 : σ) (S : Nat) (k : Nat) : Bool :=
  if k < 64 then S.testBit k
  else (wordAt E (E.theft_mt_reset m0 S) (k / 64 - 1)).testBit (k % 64)

/-- The number whose bits `0 .. w-1` are the stream bits `off .. off+w-1`. -/
def streamSlice {σ : Type} (E : Env σ) (m0 : σ) (S : Nat) : Nat → Nat → Nat
  | _, 0 => 0
  | off, w + 1 => (streamBit E m0 S off).toNat + 2 * streamSlice E m0 S (off + 1) w

/-- The composition the spec describes: the `i`-th result shifted left by the
cumulative width of the calls before it, all combined with bitwise OR; `off` is the
width consumed before the first listed call. -/
def composeAt (off : Nat) : List Nat → List Nat → Nat
  | w :: ws, r :: rs => (r <<< off) ||| composeAt (off + w) ws rs
  | _, _ => 0

/-- A concrete Word Source for evaluation: a counter whose `n`-th word is built from
the seed and `n`, and a platform whose full-width right shift leaves its operand. -/
def demoEnv : Env (Nat × Nat) where
  theft_mt_reset := fun _ seed => (seed, 0)
  theft_mt_random := fun m => ((m.1 * 6364136223846793005 + m.2 * 1442695040888963407 + 1) % 2 ^ 64,
    (m.1, m.2 + 1))
  shr_full := fun x => x
  reset_restarts := fun _ _ _ => rfl
  random_lt := fun _ => Nat.mod_lt _ (by decide)

/-- A state as some earlier history may have left it. -/
def demoState : theft (Nat × Nat) :=
  { seed := 7, prng_buf := 0xdeadbeef, bits_available := 13, mt := (7, 3) }

/-- The slices of the stream that successive draws of the given widths cover,
starting at offset `off`. -/
def streamSlices {σ : Type} (E : Env σ) (m0 : σ) (S : Nat) : Nat → List Nat → List Nat
  | _, [] => []
  | off, w :: ws => streamSlice E m0 S off w :: streamSlices E m0 S (off + w) ws

/-- A Word Source whose every word is 0, on a platform whose full-width right shift
leaves its operand; small enough to trace by hand. -/
def zeroEnv : Env Unit where
  theft_mt_reset := fun _ _ => ()
  theft_mt_random := fun _ => (0, ())
  shr_full := fun x => x
  reset_restarts := fun _ _ _ => rfl
  random_lt := fun _ => Nat.pos_pow_of_pos 64 (by decide)

/-- A zeroed `struct theft`. -/
def zeroState : theft Unit :=
  { seed := 0, prng_buf := 0, bits_available := 0, mt := () }

/-- Another state over the demo Word Source, with an exhausted buffer. -/
def demoState2 : theft (Nat × Nat) :=
  { seed := 0, prng_buf := 0, bits_available := 0, mt := (1, 9) }

/-- `theft_random_double`, lines 70-74: one 64-bit draw handed to
`theft_mt_uint64_to_double`.  Modelled from the spec: that conversion belongs to the
Word Source and is not among the sources, so it is the parameter `to_double`, into
any type `δ` of doubles. -/
def theft_random_double {σ δ : Type} (E : Env σ) (to_double : Nat → δ) (t : theft σ) :
    Option (δ × theft σ) :=
  match theft_random_bits E t 64 with
  | none => none
  | some (r, t1) => some (to_double r, t1)

/-- The shift amounts that one call of `mask` executes: none on the branch for 64,
else the amount of `1LLU << bits`. -/
def mask_shifts (bits : Nat) : List Nat :=
  if bits = 64 then [] else [bits]

/-- The shift amounts that one call of `theft_random_bits` executes, in order: the
shift inside `mask(t->bits_available)` of line 44 (on the refill branch), the shift
inside `mask(bit_count)` and the left shift by `shift` of line 53, and the right shift
by `bit_count` of line 55.  Nothing is executed when the assertion aborts. -/
def shift_amounts {σ : Type} (E : Env σ) (t : theft σ) (bit_count : Nat) : List Nat :=
  if bit_count ≤ 64 then
    let l := drain E t bit_count
    (if t.bits_available < bit_count then mask_shifts t.bits_available else [])
      ++ mask_shifts l.bit_count ++ [l.shift, l.bit_count]
  else []

/-- The `uint8_t` subtractions that one call of `theft_random_bits` executes, each as
the pair of what is subtracted from and what is subtracted:
`bit_count -= t->bits_available` of line 46 (on the refill branch) and
`t->bits_available -= bit_count` of line 54. -/
def subtractions {σ : Type} (E : Env σ) (t : theft σ) (bit_count : Nat) : List (Nat × Nat) :=
  if bit_count ≤ 64 then
    let l := drain E t bit_count
    (if t.bits_available < bit_count then [(bit_count, t.bits_available)] else [])
      ++ [(l.t.bits_available, l.bit_count)]
  else []

/-- The number of words that successive draws of the given widths pull in all. -/
def draws_pulled {σ : Type} (E : Env σ) (t : theft σ) : List Nat → Nat
  | [] => 0
  | w :: ws =>
    words_pulled t w +
      (match theft_random_bits E t w with
       | none => 0
       | some (_, t1) => draws_pulled E t1 ws)

/-- A Word Source whose every word is 1, on a platform whose full-width right shift
leaves its operand. -/
def oneEnv : Env Unit where
  theft_mt_reset := fun _ _ => ()
  theft_mt_random := fun _ => (1, ())
  shr_full := fun x => x
  reset_restarts := fun _ _ _ => rfl
  random_lt := fun _ => Nat.one_lt_two_pow (by decide)

/-- What links a state reached after `c` bits were drawn to the bit stream. -/
structure Inv {σ : Type} (E : Env σ) (m0 : σ) (S : Nat) (c : Nat) (t : theft σ) : Prop where
  hb : t.bits_available ≤ 64
  hge : 64 ≤ c + t.bits_available
  hmod : (c + t.bits_available) % 64 = 0
  hbits : ∀ j, j < t.bits_available → t.prng_buf.testBit j = streamBit E m0 S (c + j)
  hmt : t.mt = pullN E (E.theft_mt_reset m0 S) ((c + t.bits_available) / 64 - 1)

/-! ## Arithmetic of the two paths -/

theorem mask_eq (n : Nat) (h : n ≤ 64) : mask n = 2 ^ n - 1 := by
  unfold mask
  split
  · subst_vars; rfl
  · have hn : n < 64 := by omega
    have h1 : 2 ^ n < 2 ^ 64 := Nat.pow_lt_pow_right (by decide) hn
    have h0 : 0 < 2 ^ n := Nat.pos_pow_of_pos _ (by decide)
    rw [Nat.one_shiftLeft, Nat.mod_eq_of_lt h1]
    have : 2 ^ n + 2 ^ 64 - 1 = (2 ^ n - 1) + 2 ^ 64 := by omega
    rw [this, Nat.add_mod_right, Nat.mod_eq_of_lt (by omega)]

theorem and_mask (x n : Nat) (h : n ≤ 64) : x &&& mask n = x % 2 ^ n := by
  rw [mask_eq n h, Nat.and_pow_two_sub_one_eq_mod]

/-- The direct path: enough bits are buffered. -/
theorem random_bits_direct {σ : Type} (E : Env σ) (t : theft σ) (w : Nat)
    (hw : w ≤ t.bits_available) (hb : t.bits_available ≤ 64) :
    theft_random_bits E t w =
      some (t.prng_buf % 2 ^ w,
        { t with bits_available := t.bits_available - w, prng_buf := shr64 E t.prng_buf w }) := by
  have hw64 : w ≤ 64 := by omega
  have hnot : ¬ t.bits_available < w := by omega
  have e : (t.bits_available + 256 - w) % 256 = t.bits_available - w := by omega
  have hlt : t.prng_buf % 2 ^ w < 2 ^ 64 :=
    lt_of_lt_of_le (Nat.mod_lt _ (Nat.pos_pow_of_pos _ (by decide)))
      (Nat.pow_le_pow_right (by decide) hw64)
  simp only [theft_random_bits, drain, hw64, hnot, if_true, if_false, and_mask _ _ hw64,
    Nat.shiftLeft_zero, Nat.zero_or, Nat.mod_eq_of_lt hlt, e]

/-- The refill path: the buffered bits are drained and one word is pulled. -/
theorem random_bits_refill {σ : Type} (E : Env σ) (t : theft σ) (w : Nat)
    (hw : t.bits_available < w) (hw64 : w ≤ 64) :
    theft_random_bits E t w =
      some ((t.prng_buf % 2 ^ t.bits_available) |||
          (((E.theft_mt_random t.mt).1 % 2 ^ (w - t.bits_available)) <<< t.bits_available),
        { t with
          bits_available := 64 - (w - t.bits_available)
          prng_buf := shr64 E (E.theft_mt_random t.mt).1 (w - t.bits_available)
          mt := (E.theft_mt_random t.mt).2 }) := by
  have hb : t.bits_available ≤ 64 := by omega
  have e1 : (0 + t.bits_available) % 256 = t.bits_available := by omega
  have e2 : (w + 256 - t.bits_available) % 256 = w - t.bits_available := by omega
  have e3 : (64 + 256 - (w - t.bits_available)) % 256 = 64 - (w - t.bits_available) := by omega
  have hr : w - t.bits_available ≤ 64 := by omega
  have hlt : ((E.theft_mt_random t.mt).1 % 2 ^ (w - t.bits_available)) <<< t.bits_available
      < 2 ^ 64 := by
    rw [Nat.shiftLeft_eq]
    have h1 : (E.theft_mt_random t.mt).1 % 2 ^ (w - t.bits_available) < 2 ^ (w - t.bits_available) :=
      Nat.mod_lt _ (Nat.pos_pow_of_pos _ (by decide))
    calc _ < 2 ^ (w - t.bits_available) * 2 ^ t.bits_available :=
            Nat.mul_lt_mul_of_pos_right h1 (Nat.pos_pow_of_pos _ (by decide))
      _ = 2 ^ w := by rw [← Nat.pow_add]; congr 1; omega
      _ ≤ 2 ^ 64 := Nat.pow_le_pow_right (by decide) hw64
  simp only [theft_random_bits, drain, hw64, hw, if_true, and_mask _ _ hb, and_mask _ _ hr,
    Nat.zero_or, e1, e2, e3, Nat.mod_eq_of_lt hlt]

/-- The Word Source after a draw is the one before it advanced by `words_pulled`
words: the counter counts the calls of `theft_mt_random` that the draw makes. -/
theorem random_bits_mt {σ : Type} (E : Env σ) (t : theft σ) (w r : Nat) (t1 : theft σ)
    (h : theft_random_bits E t w = some (r, t1)) :
    t1.mt = pullN E t.mt (words_pulled t w) := by
  unfold theft_random_bits at h
  by_cases hw : w ≤ 64
  · rw [if_pos hw] at h
    have e := (Prod.mk.inj (Option.some.inj h)).2
    rw [← e]
    by_cases hr : t.bits_available < w
    · simp [drain, words_pulled, hw, hr, pullN]
    · simp [drain, words_pulled, hw, hr, pullN]
  · rw [if_neg hw] at h
    exact Option.noConfusion h

/-! ## The bit stream -/

theorem testBit_streamSlice {σ : Type} (E : Env σ) (m0 : σ) (S : Nat) (w off j : Nat) :
    (streamSlice E m0 S off w).testBit j = (decide (j < w) && streamBit E m0 S (off + j)) := by
  induction w generalizing off j with
  | zero => simp [streamSlice]
  | succ w ih =>
    cases j with
    | zero =>
      simp only [streamSlice, Nat.testBit_zero, Nat.add_zero]
      cases streamBit E m0 S off <;> simp
    | succ j =>
      have hdiv : ((streamBit E m0 S off).toNat + 2 * streamSlice E m0 S (off + 1) w) / 2
          = streamSlice E m0 S (off + 1) w := by
        cases streamBit E m0 S off
        · simp
        · simp; omega
      simp only [streamSlice, Nat.testBit_succ, hdiv, ih]
      have e : off + 1 + j = off + (j + 1) := by omega
      rw [e]
      simp

theorem streamSlice_lt {σ : Type} (E : Env σ) (m0 : σ) (S : Nat) (off w : Nat) :
    streamSlice E m0 S off w < 2 ^ w := by
  apply Nat.lt_pow_two_of_testBit
  intro i hi
  rw [testBit_streamSlice]
  simp
  intro h; omega

theorem inv_set_seed {σ : Type} (E : Env σ) (t : theft σ) (S : Nat) :
    Inv E t.mt S 0 (theft_set_seed E t S) := by
  refine ⟨by simp [theft_set_seed], by simp [theft_set_seed], by simp [theft_set_seed], ?_, ?_⟩
  · intro j hj
    have hj : j < 64 := hj
    simp [theft_set_seed, streamBit, hj]
  · simp [theft_set_seed, pullN]

theorem inv_step {σ : Type} (E : Env σ) (m0 : σ) (S c : Nat) (t : theft σ) (w : Nat)
    (hI : Inv E m0 S c t) (hw : w ≤ 64) :
    ∃ t1, theft_random_bits E t w = some (streamSlice E m0 S c w, t1) ∧
      Inv E m0 S (c + w) t1 := by
  obtain ⟨hb, hge, hmod, hbits, hmt⟩ := hI
  by_cases hd : w ≤ t.bits_available
  · refine ⟨{ t with bits_available := t.bits_available - w, prng_buf := shr64 E t.prng_buf w },
      ?_, ?_⟩
    · rw [random_bits_direct E t w hd hb]
      congr 2
      apply Nat.eq_of_testBit_eq
      intro j
      rw [testBit_streamSlice, Nat.testBit_mod_two_pow]
      by_cases hj : j < w
      · simp [hj, hbits j (by omega)]
      · simp [hj]
    · refine ⟨?_, ?_, ?_, ?_, ?_⟩
      · show t.bits_available - w ≤ 64
        omega
      · show 64 ≤ c + w + (t.bits_available - w)
        omega
      · show (c + w + (t.bits_available - w)) % 64 = 0
        have : c + w + (t.bits_available - w) = c + t.bits_available := by omega
        rw [this]; exact hmod
      · intro j hj
        have hj : j < t.bits_available - w := hj
        show (shr64 E t.prng_buf w).testBit j = _
        have hw' : w < 64 := by omega
        simp only [shr64, hw', if_true, Nat.testBit_shiftRight]
        rw [hbits (w + j) (by omega)]
        congr 1; omega
      · show t.mt = pullN E _ ((c + w + (t.bits_available - w)) / 64 - 1)
        have : c + w + (t.bits_available - w) = c + t.bits_available := by omega
        rw [this]; exact hmt
  · have hr : t.bits_available < w := by omega
    have hW : (E.theft_mt_random t.mt).1
        = wordAt E (E.theft_mt_reset m0 S) ((c + t.bits_available) / 64 - 1) := by
      rw [wordAt, ← hmt]
    refine ⟨{ t with
        bits_available := 64 - (w - t.bits_available)
        prng_buf := shr64 E (E.theft_mt_random t.mt).1 (w - t.bits_available)
        mt := (E.theft_mt_random t.mt).2 }, ?_, ?_⟩
    · rw [random_bits_refill E t w hr hw]
      congr 2
      apply Nat.eq_of_testBit_eq
      intro j
      rw [testBit_streamSlice, Nat.testBit_or, Nat.testBit_shiftLeft, Nat.testBit_mod_two_pow,
        Nat.testBit_mod_two_pow]
      by_cases hj : j < t.bits_available
      · have : ¬ j ≥ t.bits_available := by omega
        have hjw : j < w := by omega
        simp [hj, this, hjw, hbits j hj]
      · by_cases hjw : j < w
        · have h1 : j ≥ t.bits_available := by omega
          have h2 : j - t.bits_available < w - t.bits_available := by omega
          have h3 : ¬ c + j < 64 := by omega
          have h4 : (c + j) / 64 - 1 = (c + t.bits_available) / 64 - 1 := by omega
          have h5 : (c + j) % 64 = j - t.bits_available := by omega
          simp [hj, hjw, h1, h2, streamBit, h3, h4, h5, hW]
        · have h2 : ¬ j - t.bits_available < w - t.bits_available := by omega
          simp [hj, hjw, h2]
    · refine ⟨?_, ?_, ?_, ?_, ?_⟩
      · show 64 - (w - t.bits_available) ≤ 64
        omega
      · show 64 ≤ c + w + (64 - (w - t.bits_available))
        omega
      · show (c + w + (64 - (w - t.bits_available))) % 64 = 0
        omega
      · intro j hj
        have hj : j < 64 - (w - t.bits_available) := hj
        show (shr64 E (E.theft_mt_random t.mt).1 (w - t.bits_available)).testBit j = _
        have hw' : w - t.bits_available < 64 := by omega
        have h3 : ¬ c + w + j < 64 := by omega
        have h4 : (c + w + j) / 64 - 1 = (c + t.bits_available) / 64 - 1 := by omega
        have h5 : (c + w + j) % 64 = w - t.bits_available + j := by omega
        simp only [shr64, hw', if_true, Nat.testBit_shiftRight, streamBit, h3, if_false, h4, h5, hW]
      · show (E.theft_mt_random t.mt).2
          = pullN E _ ((c + w + (64 - (w - t.bits_available))) / 64 - 1)
        have h6 : (c + w + (64 - (w - t.bits_available))) / 64 - 1
            = ((c + t.bits_available) / 64 - 1) + 1 := by omega
        rw [h6, pullN, ← hmt]

theorem mod_split (x a b : Nat) :
    x % 2 ^ (a + b) = x % 2 ^ a ||| ((x >>> a) % 2 ^ b) <<< a := by
  apply Nat.eq_of_testBit_eq
  intro j
  simp only [Nat.testBit_or, Nat.testBit_shiftLeft, Nat.testBit_mod_two_pow,
    Nat.testBit_shiftRight]
  by_cases h : j < a
  · have h1 : j < a + b := by omega
    have h2 : ¬ j ≥ a := by omega
    simp [h, h1, h2]
  · have h2 : j ≥ a := by omega
    have h3 : a + (j - a) = j := by omega
    by_cases h4 : j < a + b
    · have h5 : j - a < b := by omega
      simp [h, h2, h3, h4, h5]
    · have h5 : ¬ j - a < b := by omega
      simp [h, h4, h5]

theorem shl_or (x y a : Nat) : (x ||| y) <<< a = x <<< a ||| y <<< a := by
  apply Nat.eq_of_testBit_eq
  intro j
  simp only [Nat.testBit_or, Nat.testBit_shiftLeft]
  cases decide (j ≥ a) <;> simp

theorem streamSlice_add {σ : Type} (E : Env σ) (m0 : σ) (S : Nat) (off w1 w2 : Nat) :
    streamSlice E m0 S off (w1 + w2)
      = streamSlice E m0 S off w1 ||| streamSlice E m0 S (off + w1) w2 <<< w1 := by
  apply Nat.eq_of_testBit_eq
  intro j
  simp only [Nat.testBit_or, Nat.testBit_shiftLeft, testBit_streamSlice]
  by_cases h : j < w1
  · have h1 : j < w1 + w2 := by omega
    have h2 : ¬ j ≥ w1 := by omega
    simp [h, h1, h2]
  · have h2 : j ≥ w1 := by omega
    have h3 : off + w1 + (j - w1) = off + j := by omega
    by_cases h4 : j < w1 + w2
    · have h5 : j - w1 < w2 := by omega
      simp [h, h2, h3, h4, h5]
    · have h5 : ¬ j - w1 < w2 := by omega
      simp [h, h4, h5]

theorem compose_slices {σ : Type} (E : Env σ) (m0 : σ) (S : Nat) (ws : List Nat) (k off : Nat) :
    composeAt k ws (streamSlices E m0 S off ws) = streamSlice E m0 S off ws.sum <<< k := by
  induction ws generalizing k off with
  | nil => simp [composeAt, streamSlices, streamSlice]
  | cons w ws ih =>
    simp only [composeAt, streamSlices, List.sum_cons, ih, streamSlice_add, shl_or]
    rw [Nat.add_comm k w, Nat.shiftLeft_add]

theorem streamSlices_length {σ : Type} (E : Env σ) (m0 : σ) (S : Nat) (ws : List Nat) (off : Nat) :
    (streamSlices E m0 S off ws).length = ws.length := by
  induction ws generalizing off with
  | nil => rfl
  | cons w ws ih => simp [streamSlices, ih]

theorem streamSlices_get {σ : Type} (E : Env σ) (m0 : σ) (S : Nat) (ws : List Nat) (off i : Nat)
    (h : i < ws.length) :
    (streamSlices E m0 S off ws)[i]?
      = some (streamSlice E m0 S (off + (ws.take i).sum) (ws.get ⟨i, h⟩)) := by
  induction ws generalizing off i with
  | nil => simp at h
  | cons w ws ih =>
    cases i with
    | zero => simp [streamSlices]
    | succ i =>
      have h1 : i < ws.length := by simpa using h
      simp only [streamSlices, List.getElem?_cons_succ, List.take_succ_cons, List.sum_cons,
        List.get_cons_succ]
      rw [ih (off + w) i h1, Nat.add_assoc]

theorem draws_inv {σ : Type} (E : Env σ) (m0 : σ) (S : Nat) (ws : List Nat) (c : Nat)
    (t : theft σ) (hI : Inv E m0 S c t) (hws : ∀ w ∈ ws, w ≤ 64) :
    ∃ t1, draws E t ws = some (streamSlices E m0 S c ws, t1) ∧ Inv E m0 S (c + ws.sum) t1 := by
  induction ws generalizing c t with
  | nil => exact ⟨t, rfl, by simpa using hI⟩
  | cons w ws ih =>
    obtain ⟨t1, h1, hI1⟩ := inv_step E m0 S c t w hI (hws w (by simp))
    obtain ⟨t2, h2, hI2⟩ := ih (c + w) t1 hI1 (fun v hv => hws v (by simp [hv]))
    refine ⟨t2, ?_, ?_⟩
    · simp [draws, h1, h2, streamSlices]
    · simpa [Nat.add_assoc] using hI2

theorem streamSlice_seed {σ : Type} (E : Env σ) (m0 : σ) (S off w : Nat) (h : off + w ≤ 64) :
    streamSlice E m0 S off w = (S >>> off) % 2 ^ w := by
  apply Nat.eq_of_testBit_eq
  intro j
  rw [testBit_streamSlice, Nat.testBit_mod_two_pow, Nat.testBit_shiftRight]
  by_cases hj : j < w
  · have : off + j < 64 := by omega
    simp [hj, streamBit, this]
  · simp [hj]

theorem streamSlice_word {σ : Type} (E : Env σ) (m0 : σ) (S q off w : Nat) (h : off + w ≤ 64) :
    streamSlice E m0 S (64 * (q + 1) + off) w
      = (wordAt E (E.theft_mt_reset m0 S) q >>> off) % 2 ^ w := by
  apply Nat.eq_of_testBit_eq
  intro j
  rw [testBit_streamSlice, Nat.testBit_mod_two_pow, Nat.testBit_shiftRight]
  by_cases hj : j < w
  · have h1 : ¬ 64 * (q + 1) + off + j < 64 := by omega
    have h2 : (64 * (q + 1) + off + j) / 64 - 1 = q := by omega
    have h3 : (64 * (q + 1) + off + j) % 64 = off + j := by omega
    simp [hj, streamBit, h1, h2, h3]
  · simp [hj]

/-! ## Seeding and the stream of draws -/

/-- C1: for every seed `S` (a `uint64_t` value) and every prior state, `theft_set_seed`
followed immediately by `theft_random` returns exactly `S`, whatever the Word Source
would produce. -/
theorem seed_is_first_draw {σ : Type} (E : Env σ) (t : theft σ) (S : Nat) (hS : S < 2 ^ 64) :
    (theft_random E (theft_set_seed E t S)).map Prod.fst = some S := by
  have h := random_bits_direct E (theft_set_seed E t S) 64 (Nat.le_refl 64) (Nat.le_refl 64)
  have e : (theft_set_seed E t S).prng_buf = S := rfl
  rw [theft_random, show 8 * 8 = 64 from rfl, h, e, Nat.mod_eq_of_lt hS]
  rfl

/-- Witness for C1 at seed 0: the first draw after seeding with 0 is 0. -/
theorem seed_is_first_draw_witness :
    (0 : Nat) < 2 ^ 64 ∧
      (theft_random demoEnv (theft_set_seed demoEnv demoState 0)).map Prod.fst = some 0 :=
  ⟨by decide, seed_is_first_draw demoEnv demoState 0 (by decide)⟩

/-- C2: after `theft_set_seed(S)`, successive `theft_random_bits` calls with widths
`w1..wn` (each at most 64) all return, and the `i`-th result is the slice of `wi` bits
of the stream (seed bits, then the words after `reset(S)`) at offset `w1+...+w(i-1)`;
the results composed in order are the first `w1+...+wn` stream bits, so they depend
only on the seed and the cumulative width. -/
theorem bit_stream_refinement {σ : Type} (E : Env σ) (t : theft σ) (S : Nat)
    (widths : List Nat) (hw : ∀ w ∈ widths, w ≤ 64) :
    ∃ rs t1, draws E (theft_set_seed E t S) widths = some (rs, t1) ∧
      rs.length = widths.length ∧
      (∀ (i : Nat) (h : i < widths.length),
        rs[i]? = some (streamSlice E t.mt S ((widths.take i).sum) (widths.get ⟨i, h⟩))) ∧
      composeAt 0 widths rs = streamSlice E t.mt S 0 widths.sum := by
  obtain ⟨t1, h1, _⟩ := draws_inv E t.mt S widths 0 _ (inv_set_seed E t S) hw
  refine ⟨_, t1, h1, streamSlices_length E t.mt S widths 0, ?_, ?_⟩
  · intro i h
    simpa using streamSlices_get E t.mt S widths 0 i h
  · simpa using compose_slices E t.mt S widths 0 0

/-- Witness for C2 at widths 11, 13, 15, 17, 19. -/
theorem bit_stream_refinement_witness :
    (∀ w ∈ [11, 13, 15, 17, 19], w ≤ 64) ∧
    ∃ rs t1, draws demoEnv (theft_set_seed demoEnv demoState 0x15a600d64b175eed)
        [11, 13, 15, 17, 19] = some (rs, t1) ∧
      rs.length = [11, 13, 15, 17, 19].length ∧
      (∀ (i : Nat) (h : i < [11, 13, 15, 17, 19].length),
        rs[i]? = some (streamSlice demoEnv demoState.mt 0x15a600d64b175eed
          (([11, 13, 15, 17, 19].take i).sum) ([11, 13, 15, 17, 19].get ⟨i, h⟩))) ∧
      composeAt 0 [11, 13, 15, 17, 19] rs
        = streamSlice demoEnv demoState.mt 0x15a600d64b175eed 0 [11, 13, 15, 17, 19].sum :=
  ⟨by decide, bit_stream_refinement demoEnv demoState 0x15a600d64b175eed [11, 13, 15, 17, 19]
    (by decide)⟩

/-- C3: for every seed and every list of widths (each at most 64), reseeding two states
left by arbitrary histories and making the same draws returns the same results, call
for call (and leaves the same state). -/
theorem reseed_deterministic {σ : Type} (E : Env σ) (t1 t2 : theft σ) (S : Nat)
    (widths : List Nat) (hw : ∀ w ∈ widths, w ≤ 64) :
    ∃ rs t3, draws E (theft_set_seed E t1 S) widths = some (rs, t3) ∧
      draws E (theft_set_seed E t2 S) widths = some (rs, t3) := by
  obtain ⟨t3, h1, _⟩ := draws_inv E t1.mt S widths 0 _ (inv_set_seed E t1 S) hw
  have e : theft_set_seed E t2 S = theft_set_seed E t1 S := by
    simp only [theft_set_seed, E.reset_restarts t2.mt t1.mt S]
  exact ⟨_, t3, h1, by rw [e]; exact h1⟩

/-- Witness for C3: a mid-stream state and a fresh one, reseeded alike. -/
theorem reseed_deterministic_witness :
    (∀ w ∈ [11, 64, 0, 3], w ≤ 64) ∧
    ∃ rs t3, draws demoEnv (theft_set_seed demoEnv demoState 5) [11, 64, 0, 3] = some (rs, t3) ∧
      draws demoEnv (theft_set_seed demoEnv
        { seed := 0, prng_buf := 0, bits_available := 0, mt := (1, 9) } 5) [11, 64, 0, 3]
        = some (rs, t3) :=
  ⟨by decide, reseed_deterministic demoEnv demoState
    { seed := 0, prng_buf := 0, bits_available := 0, mt := (1, 9) } 5 [11, 64, 0, 3] (by decide)⟩

/-- C4: right after `theft_set_seed(S)`, one 64-bit draw equals the bitwise OR of the
results of draws of widths `w1..wn` (each at most 64, summing to 64), the `i`-th
shifted left by `w1+...+w(i-1)`; and the low 16 bits of the 64-bit draw equal
`low8 | (high8 << 8)` for two 8-bit draws. -/
theorem split_from_fresh_seed {σ : Type} (E : Env σ) (t : theft σ) (S : Nat)
    (widths : List Nat) (hw : ∀ w ∈ widths, w ≤ 64) (hsum : widths.sum = 64) :
    (∃ r t1 rs t2, theft_random_bits E (theft_set_seed E t S) 64 = some (r, t1) ∧
      draws E (theft_set_seed E t S) widths = some (rs, t2) ∧
      r = composeAt 0 widths rs) ∧
    (∃ r t1 lo hi t2, theft_random_bits E (theft_set_seed E t S) 64 = some (r, t1) ∧
      draws E (theft_set_seed E t S) [8, 8] = some ([lo, hi], t2) ∧
      r % 2 ^ 16 = lo ||| (hi <<< 8)) := by
  obtain ⟨t1, h1, _⟩ := inv_step E t.mt S 0 _ 64 (inv_set_seed E t S) (Nat.le_refl 64)
  obtain ⟨t2, h2, _⟩ := draws_inv E t.mt S widths 0 _ (inv_set_seed E t S) hw
  obtain ⟨t3, h3, _⟩ := draws_inv E t.mt S [8, 8] 0 _ (inv_set_seed E t S) (by decide)
  refine ⟨⟨_, t1, _, t2, h1, h2, ?_⟩, ⟨_, t1, _, _, t3, h1, h3, ?_⟩⟩
  · rw [compose_slices, hsum]; rfl
  · have e := streamSlice_add E t.mt S 0 8 8
    simp only [Nat.zero_add] at e ⊢
    rw [← e, streamSlice_seed E t.mt S 0 64 (by decide),
      streamSlice_seed E t.mt S 0 (8 + 8) (by decide)]
    exact Nat.mod_mod_of_dvd _ (by decide)

/-- Witness for C4 at the widths 1, 7, 24, 32. -/
theorem split_from_fresh_seed_witness :
    (∀ w ∈ [1, 7, 24, 32], w ≤ 64) ∧ [1, 7, 24, 32].sum = 64 ∧
    ((∃ r t1 rs t2,
      theft_random_bits demoEnv (theft_set_seed demoEnv demoState 0xabad5eed) 64 = some (r, t1) ∧
      draws demoEnv (theft_set_seed demoEnv demoState 0xabad5eed) [1, 7, 24, 32]
        = some (rs, t2) ∧
      r = composeAt 0 [1, 7, 24, 32] rs) ∧
    (∃ r t1 lo hi t2,
      theft_random_bits demoEnv (theft_set_seed demoEnv demoState 0xabad5eed) 64 = some (r, t1) ∧
      draws demoEnv (theft_set_seed demoEnv demoState 0xabad5eed) [8, 8] = some ([lo, hi], t2) ∧
      r % 2 ^ 16 = lo ||| (hi <<< 8))) :=
  ⟨by decide, by decide,
    split_from_fresh_seed demoEnv demoState 0xabad5eed [1, 7, 24, 32] (by decide) (by decide)⟩

/-! ## Splitting a draw -/

theorem shr64_mod {σ : Type} (E : Env σ) (x a b : Nat) (h : a + b ≤ 64) :
    (shr64 E x a) % 2 ^ b = (x >>> a) % 2 ^ b := by
  by_cases ha : a < 64
  · simp [shr64, ha]
  · have hb : b = 0 := by omega
    subst hb
    simp [Nat.mod_one]

theorem or_shl_assoc (x y z a b c : Nat) (h : a + b = c) :
    x ||| (y ||| z <<< a) <<< b = (x ||| y <<< b) ||| z <<< c := by
  subst h
  rw [shl_or, Nat.shiftLeft_add, Nat.or_assoc]

/-- The value equation of the two-way split, with the states spelled out. -/
theorem split_two {σ : Type} (E : Env σ) (t : theft σ) (w1 w2 : Nat)
    (hb : t.bits_available ≤ 64) (hw : w1 + w2 ≤ 64) :
    ∃ r t3 r1 ta r2 tb, theft_random_bits E t (w1 + w2) = some (r, t3) ∧
      theft_random_bits E t w1 = some (r1, ta) ∧ theft_random_bits E ta w2 = some (r2, tb) ∧
      r = r1 ||| (r2 <<< w1) ∧ t3.bits_available = tb.bits_available ∧ t3.mt = tb.mt ∧
      words_pulled t (w1 + w2) = words_pulled t w1 + words_pulled ta w2 := by
  have hw1 : w1 ≤ 64 := by omega
  have hw2 : w2 ≤ 64 := by omega
  by_cases hA : w1 + w2 ≤ t.bits_available
  · -- both ways stay on the direct path
    have h1 := random_bits_direct E t (w1 + w2) hA hb
    have h2 := random_bits_direct E t w1 (by omega) hb
    have h3 := random_bits_direct E
      { t with bits_available := t.bits_available - w1, prng_buf := shr64 E t.prng_buf w1 } w2
      (by show w2 ≤ t.bits_available - w1; omega) (by show t.bits_available - w1 ≤ 64; omega)
    refine ⟨_, _, _, _, _, _, h1, h2, h3, ?_, ?_, rfl, ?_⟩
    · show t.prng_buf % 2 ^ (w1 + w2) = t.prng_buf % 2 ^ w1 ||| (shr64 E t.prng_buf w1 % 2 ^ w2) <<< w1
      rw [shr64_mod E _ _ _ hw, mod_split]
    · show t.bits_available - (w1 + w2) = t.bits_available - w1 - w2
      omega
    · have n1 : ¬ t.bits_available < w1 + w2 := by omega
      have n2 : ¬ t.bits_available < w1 := by omega
      have n3 : ¬ t.bits_available - w1 < w2 := by omega
      simp [words_pulled, hw, hw1, hw2, n1, n2, n3]
  · by_cases hB : w1 ≤ t.bits_available
    · -- the second of the two narrow draws refills
      have hlt : w1 < 64 := by omega
      have h1 := random_bits_refill E t (w1 + w2) (by omega) hw
      have h2 := random_bits_direct E t w1 hB hb
      have h3 := random_bits_refill E
        { t with bits_available := t.bits_available - w1, prng_buf := shr64 E t.prng_buf w1 } w2
        (by show t.bits_available - w1 < w2; omega) hw2
      refine ⟨_, _, _, _, _, _, h1, h2, h3, ?_, ?_, rfl, ?_⟩
      · show t.prng_buf % 2 ^ t.bits_available
            ||| ((E.theft_mt_random t.mt).1 % 2 ^ (w1 + w2 - t.bits_available)) <<< t.bits_available
          = t.prng_buf % 2 ^ w1
            ||| (shr64 E t.prng_buf w1 % 2 ^ (t.bits_available - w1)
              ||| ((E.theft_mt_random t.mt).1 % 2 ^ (w2 - (t.bits_available - w1)))
                <<< (t.bits_available - w1)) <<< w1
        have e1 : w2 - (t.bits_available - w1) = w1 + w2 - t.bits_available := by omega
        have e2 : t.bits_available = w1 + (t.bits_available - w1) := by omega
        rw [or_shl_assoc _ _ _ _ _ t.bits_available (by omega), e1,
          shr64_mod E _ _ _ (by omega), ← mod_split, ← e2]
      · show 64 - (w1 + w2 - t.bits_available) = 64 - (w2 - (t.bits_available - w1))
        omega
      · have n1 : t.bits_available < w1 + w2 := by omega
        have n2 : ¬ t.bits_available < w1 := by omega
        have n3 : t.bits_available - w1 < w2 := by omega
        simp [words_pulled, hw, hw1, hw2, n1, n2, n3]
    · -- the first of the two narrow draws refills
      have hr : t.bits_available < w1 := by omega
      have h1 := random_bits_refill E t (w1 + w2) (by omega) hw
      have h2 := random_bits_refill E t w1 hr hw1
      have h3 := random_bits_direct E
        { t with
          bits_available := 64 - (w1 - t.bits_available)
          prng_buf := shr64 E (E.theft_mt_random t.mt).1 (w1 - t.bits_available)
          mt := (E.theft_mt_random t.mt).2 } w2
        (by show w2 ≤ 64 - (w1 - t.bits_available); omega)
        (by show 64 - (w1 - t.bits_available) ≤ 64; omega)
      refine ⟨_, _, _, _, _, _, h1, h2, h3, ?_, ?_, rfl, ?_⟩
      · show t.prng_buf % 2 ^ t.bits_available
            ||| ((E.theft_mt_random t.mt).1 % 2 ^ (w1 + w2 - t.bits_available)) <<< t.bits_available
          = (t.prng_buf % 2 ^ t.bits_available
              ||| ((E.theft_mt_random t.mt).1 % 2 ^ (w1 - t.bits_available)) <<< t.bits_available)
            ||| (shr64 E (E.theft_mt_random t.mt).1 (w1 - t.bits_available) % 2 ^ w2) <<< w1
        have e1 : w1 + w2 - t.bits_available = (w1 - t.bits_available) + w2 := by omega
        have e2 : w1 = (w1 - t.bits_available) + t.bits_available := by omega
        rw [e1, mod_split, shl_or, shr64_mod E _ _ _ (by omega), Nat.or_assoc]
        congr 2
        rw [← Nat.shiftLeft_add, ← e2]
      · show 64 - (w1 + w2 - t.bits_available) = 64 - (w1 - t.bits_available) - w2
        omega
      · have n1 : t.bits_available < w1 + w2 := by omega
        have n3 : ¬ 64 - (w1 - t.bits_available) < w2 := by omega
        simp [words_pulled, hw, hw1, hw2, n1, hr, n3]

/-- C5: from any state with `bits_available <= 64` and for `w1 + w2 <= 64`, one draw of
`w1 + w2` bits returns `r1 | (r2 << w1)` for the results of the draws of `w1` then `w2`
bits; both ways leave the same `bits_available` and Word Source, having pulled the same
number of words.  And two consecutive 64-bit draws after seeding are the compositions of
sixteen consecutive 8-bit draws. -/
theorem two_way_split {σ : Type} (E : Env σ) (t : theft σ) (w1 w2 : Nat)
    (hb : t.bits_available ≤ 64) (hw : w1 + w2 ≤ 64) :
    (∃ r t3 r1 ta r2 tb, theft_random_bits E t (w1 + w2) = some (r, t3) ∧
      theft_random_bits E t w1 = some (r1, ta) ∧ theft_random_bits E ta w2 = some (r2, tb) ∧
      r = r1 ||| (r2 <<< w1) ∧ t3.bits_available = tb.bits_available ∧ t3.mt = tb.mt ∧
      words_pulled t (w1 + w2) = words_pulled t w1 + words_pulled ta w2) ∧
    (∀ S : Nat, ∃ a0 a1 t4 bs t5,
      draws E (theft_set_seed E t S) [64, 64] = some ([a0, a1], t4) ∧
      draws E (theft_set_seed E t S) (List.replicate 16 8) = some (bs, t5) ∧
      a0 = composeAt 0 (List.replicate 8 8) (bs.take 8) ∧
      a1 = composeAt 0 (List.replicate 8 8) (bs.drop 8)) := by
  refine ⟨split_two E t w1 w2 hb hw, ?_⟩
  intro S
  obtain ⟨t4, h4, _⟩ := draws_inv E t.mt S [64, 64] 0 _ (inv_set_seed E t S) (by decide)
  obtain ⟨t5, h5, _⟩ := draws_inv E t.mt S (List.replicate 16 8) 0 _ (inv_set_seed E t S)
    (by decide)
  refine ⟨_, _, t4, _, t5, h4, h5, ?_, ?_⟩
  · exact (compose_slices E t.mt S (List.replicate 8 8) 0 0).symm
  · exact (compose_slices E t.mt S (List.replicate 8 8) 0 64).symm

/-- Witness for C5: 13 bits buffered, draws of 11 and 17 bits across the refill. -/
theorem two_way_split_witness :
    demoState.bits_available ≤ 64 ∧ 11 + 17 ≤ 64 ∧
    ((∃ r t3 r1 ta r2 tb, theft_random_bits demoEnv demoState (11 + 17) = some (r, t3) ∧
      theft_random_bits demoEnv demoState 11 = some (r1, ta) ∧
      theft_random_bits demoEnv ta 17 = some (r2, tb) ∧
      r = r1 ||| (r2 <<< 11) ∧ t3.bits_available = tb.bits_available ∧ t3.mt = tb.mt ∧
      words_pulled demoState (11 + 17) = words_pulled demoState 11 + words_pulled ta 17) ∧
    (∀ S : Nat, ∃ a0 a1 t4 bs t5,
      draws demoEnv (theft_set_seed demoEnv demoState S) [64, 64] = some ([a0, a1], t4) ∧
      draws demoEnv (theft_set_seed demoEnv demoState S) (List.replicate 16 8) = some (bs, t5) ∧
      a0 = composeAt 0 (List.replicate 8 8) (bs.take 8) ∧
      a1 = composeAt 0 (List.replicate 8 8) (bs.drop 8))) :=
  ⟨by decide, by decide, two_way_split demoEnv demoState 11 17 (by decide) (by decide)⟩

/-- The 19-bit draw that follows draws of 11, 13, 15 and 17 bits, and the second raw
draw, as slices of the stream. -/
theorem odd_sizes_slices {σ : Type} (E : Env σ) (t : theft σ) (S : Nat) :
    ∃ ta tb t5, theft_random E (theft_set_seed E t S) = some (streamSlice E t.mt S 0 64, ta) ∧
      theft_random E ta = some (streamSlice E t.mt S 64 64, tb) ∧
      draws E (theft_set_seed E t S) [11, 13, 15, 17, 19]
        = some ([streamSlice E t.mt S 0 11, streamSlice E t.mt S 11 13,
            streamSlice E t.mt S 24 15, streamSlice E t.mt S 39 17,
            streamSlice E t.mt S 56 19], t5) := by
  obtain ⟨ta, ha, hIa⟩ := inv_step E t.mt S 0 _ 64 (inv_set_seed E t S) (Nat.le_refl 64)
  obtain ⟨tb, hb, _⟩ := inv_step E t.mt S (0 + 64) ta 64 hIa (Nat.le_refl 64)
  obtain ⟨t5, h5, _⟩ := draws_inv E t.mt S [11, 13, 15, 17, 19] 0 _ (inv_set_seed E t S)
    (by decide)
  exact ⟨ta, tb, t5, ha, hb, h5⟩

theorem streamSlice_mod {σ : Type} (E : Env σ) (m0 : σ) (S off a b : Nat) :
    streamSlice E m0 S off (a + b) % 2 ^ a = streamSlice E m0 S off a := by
  apply Nat.eq_of_testBit_eq
  intro j
  rw [Nat.testBit_mod_two_pow, testBit_streamSlice, testBit_streamSlice]
  by_cases h : j < a
  · have : j < a + b := by omega
    simp [h, this]
  · simp [h]

theorem streamSlice_shr {σ : Type} (E : Env σ) (m0 : σ) (S off a b : Nat) :
    streamSlice E m0 S off (a + b) >>> a = streamSlice E m0 S (off + a) b := by
  apply Nat.eq_of_testBit_eq
  intro j
  rw [Nat.testBit_shiftRight, testBit_streamSlice, testBit_streamSlice]
  have e : off + (a + j) = off + a + j := by omega
  by_cases h : j < b
  · have : a + j < a + b := by omega
    simp [h, this, e]
  · have : ¬ a + j < a + b := by omega
    simp [h, this]

/-- C6: after `theft_set_seed(S)`, with `a0, a1` two consecutive `theft_random` draws and
`b11 .. b19` the draws of widths 11, 13, 15, 17, 19, the composition
`b11 | b13 << 11 | b15 << 24 | b17 << 39 | b19 << 56` truncated to 64 bits equals `a0`,
and `b19 >> 8` equals `a1 & (2^11 - 1)`. -/
theorem odd_sizes_cross_boundary {σ : Type} (E : Env σ) (t : theft σ) (S : Nat) :
    ∃ a0 ta a1 tb b11 b13 b15 b17 b19 t5,
      theft_random E (theft_set_seed E t S) = some (a0, ta) ∧
      theft_random E ta = some (a1, tb) ∧
      draws E (theft_set_seed E t S) [11, 13, 15, 17, 19]
        = some ([b11, b13, b15, b17, b19], t5) ∧
      (b11 ||| b13 <<< 11 ||| b15 <<< 24 ||| b17 <<< 39 ||| b19 <<< 56) % 2 ^ 64 = a0 ∧
      b19 >>> 8 = a1 &&& (2 ^ 11 - 1) := by
  obtain ⟨ta, tb, t5, ha, hb, h5⟩ := odd_sizes_slices E t S
  refine ⟨_, ta, _, tb, _, _, _, _, _, t5, ha, hb, h5, ?_, ?_⟩
  · have hc := compose_slices E t.mt S [11, 13, 15, 17, 19] 0 0
    simp only [composeAt, streamSlices, Nat.shiftLeft_zero, Nat.zero_add, Nat.or_zero,
      List.sum_cons, List.sum_nil, Nat.reduceAdd, ← Nat.or_assoc] at hc
    rw [hc]
    exact streamSlice_mod E t.mt S 0 64 11
  · rw [Nat.and_pow_two_sub_one_eq_mod]
    rw [streamSlice_shr E t.mt S 56 8 11]
    exact (streamSlice_mod E t.mt S 64 11 53).symm

/-! ## Boundary, seeds, range and abort -/

/-- C7, as worded, fails: with seed `2^56` and an all-zero Word Source the 19-bit draw is
1 (bit 56 of the seed), so its low 11 bits are 1, while the second raw draw is 0. -/
theorem last_draw_low_bits_counterexample :
    ∃ b11 b13 b15 b17 b19 a0 a1,
      (draws zeroEnv (theft_set_seed zeroEnv zeroState (2 ^ 56)) [11, 13, 15, 17, 19]).map
          Prod.fst = some [b11, b13, b15, b17, b19] ∧
      (draws zeroEnv (theft_set_seed zeroEnv zeroState (2 ^ 56)) [64, 64]).map Prod.fst
        = some [a0, a1] ∧
      b19 = 1 ∧ a1 = 0 ∧ b19 &&& (2 ^ 11 - 1) ≠ a1 &&& (2 ^ 11 - 1) :=
  ⟨0, 0, 0, 0, 1, 2 ^ 56, 0, by decide, by decide, rfl, rfl, by decide⟩

/-- C7, amended: after `theft_set_seed(S)` and draws of widths 11, 13, 15, 17, 19, the
final 19-bit draw shifted right by 8 (its bits 8..18) equals the low 11 bits of the
second of two raw 64-bit draws; its low 8 bits are bits 56..63 of the seed. -/
theorem last_draw_high_bits {σ : Type} (E : Env σ) (t : theft σ) (S : Nat) :
    ∃ a0 a1 t2 b11 b13 b15 b17 b19 t5,
      draws E (theft_set_seed E t S) [64, 64] = some ([a0, a1], t2) ∧
      draws E (theft_set_seed E t S) [11, 13, 15, 17, 19]
        = some ([b11, b13, b15, b17, b19], t5) ∧
      b19 >>> 8 = a1 % 2 ^ 11 ∧ b19 % 2 ^ 8 = (S >>> 56) % 2 ^ 8 := by
  obtain ⟨t2, h2, _⟩ := draws_inv E t.mt S [64, 64] 0 _ (inv_set_seed E t S) (by decide)
  obtain ⟨t5, h5, _⟩ := draws_inv E t.mt S [11, 13, 15, 17, 19] 0 _ (inv_set_seed E t S)
    (by decide)
  refine ⟨_, _, t2, _, _, _, _, _, t5, h2, h5, ?_, ?_⟩
  · show streamSlice E t.mt S 56 (8 + 11) >>> 8 = streamSlice E t.mt S 64 (11 + 53) % 2 ^ 11
    rw [streamSlice_shr, streamSlice_mod]
  · show streamSlice E t.mt S 56 (8 + 11) % 2 ^ 8 = _
    rw [streamSlice_mod, streamSlice_seed E t.mt S 56 8 (by decide)]

/-- C8: the first 64-bit draws after seeding with `S = 0x15a600d64b175eed`, with
`S | 0xFFFFFFFF00000000` and with `S & ~0xFFFFFFFF00000000` are pairwise distinct, and
two distinct seeds always give distinct first 64-bit draws. -/
theorem seed_sensitivity {σ : Type} (E : Env σ) (t1 t2 : theft σ) (S1 S2 : Nat)
    (h1 : S1 < 2 ^ 64) (h2 : S2 < 2 ^ 64) (hne : S1 ≠ S2) :
    ((theft_random_bits E (theft_set_seed E t1 S1) 64).map Prod.fst
      ≠ (theft_random_bits E (theft_set_seed E t2 S2) 64).map Prod.fst) ∧
    (∃ v0 v1 v2,
      (theft_random_bits E (theft_set_seed E t1 0x15a600d64b175eed) 64).map Prod.fst = some v0 ∧
      (theft_random_bits E (theft_set_seed E t1 (0x15a600d64b175eed ||| 0xFFFFFFFF00000000))
        64).map Prod.fst = some v1 ∧
      (theft_random_bits E (theft_set_seed E t1
        (0x15a600d64b175eed &&& (2 ^ 64 - 1 - 0xFFFFFFFF00000000))) 64).map Prod.fst = some v2 ∧
      v0 ≠ v1 ∧ v0 ≠ v2 ∧ v1 ≠ v2) := by
  have key : ∀ (t : theft σ) (S : Nat), S < 2 ^ 64 →
      (theft_random_bits E (theft_set_seed E t S) 64).map Prod.fst = some S := by
    intro t S hS
    have h := random_bits_direct E (theft_set_seed E t S) 64 (Nat.le_refl 64) (Nat.le_refl 64)
    have e : (theft_set_seed E t S).prng_buf = S := rfl
    rw [h, e, Nat.mod_eq_of_lt hS]
    rfl
  refine ⟨?_, _, _, _, key t1 _ (by decide), key t1 _ (by decide), key t1 _ (by decide),
    by decide, by decide, by decide⟩
  rw [key t1 S1 h1, key t2 S2 h2]
  intro h
  exact hne (Option.some.inj h)

/-- Witness for C8 at the seed of the test and the seed with its upper half set. -/
theorem seed_sensitivity_witness :
    0x15a600d64b175eed < 2 ^ 64 ∧ 0xffffffff4b175eed < 2 ^ 64 ∧
    0x15a600d64b175eed ≠ 0xffffffff4b175eed ∧
    (((theft_random_bits demoEnv (theft_set_seed demoEnv demoState 0x15a600d64b175eed)
        64).map Prod.fst
      ≠ (theft_random_bits demoEnv (theft_set_seed demoEnv demoState2 0xffffffff4b175eed)
        64).map Prod.fst) ∧
    (∃ v0 v1 v2,
      (theft_random_bits demoEnv (theft_set_seed demoEnv demoState 0x15a600d64b175eed)
        64).map Prod.fst = some v0 ∧
      (theft_random_bits demoEnv (theft_set_seed demoEnv demoState
        (0x15a600d64b175eed ||| 0xFFFFFFFF00000000)) 64).map Prod.fst = some v1 ∧
      (theft_random_bits demoEnv (theft_set_seed demoEnv demoState
        (0x15a600d64b175eed &&& (2 ^ 64 - 1 - 0xFFFFFFFF00000000))) 64).map Prod.fst = some v2 ∧
      v0 ≠ v1 ∧ v0 ≠ v2 ∧ v1 ≠ v2)) :=
  ⟨by decide, by decide, by decide,
    seed_sensitivity demoEnv demoState demoState2 0x15a600d64b175eed 0xffffffff4b175eed
      (by decide) (by decide) (by decide)⟩

/-- C9: for every state with `bits_available <= 64` and every width up to 64,
`theft_random_bits` returns a value below `2^width`: every bit at a position from
`width` upwards is zero, on the direct and on the refill path alike. -/
theorem result_range {σ : Type} (E : Env σ) (t : theft σ) (w : Nat)
    (hb : t.bits_available ≤ 64) (hw : w ≤ 64) :
    ∃ r t1, theft_random_bits E t w = some (r, t1) ∧ r < 2 ^ w ∧
      ∀ j, w ≤ j → r.testBit j = false := by
  have hpos : ∀ n : Nat, 0 < 2 ^ n := fun n => Nat.pos_pow_of_pos n (by decide)
  have main : ∃ r t1, theft_random_bits E t w = some (r, t1) ∧ r < 2 ^ w := by
    by_cases hd : w ≤ t.bits_available
    · exact ⟨_, _, random_bits_direct E t w hd hb, Nat.mod_lt _ (hpos w)⟩
    · have hr : t.bits_available < w := by omega
      refine ⟨_, _, random_bits_refill E t w hr hw, Nat.or_lt_two_pow ?_ ?_⟩
      · exact lt_of_lt_of_le (Nat.mod_lt _ (hpos _)) (Nat.pow_le_pow_right (by decide) (by omega))
      · rw [Nat.shiftLeft_eq]
        calc (E.theft_mt_random t.mt).1 % 2 ^ (w - t.bits_available) * 2 ^ t.bits_available
            < 2 ^ (w - t.bits_available) * 2 ^ t.bits_available :=
              Nat.mul_lt_mul_of_pos_right (Nat.mod_lt _ (hpos _)) (hpos _)
          _ = 2 ^ w := by rw [← Nat.pow_add]; congr 1; omega
  obtain ⟨r, t1, h, hlt⟩ := main
  refine ⟨r, t1, h, hlt, fun j hj => Nat.testBit_lt_two_pow ?_⟩
  exact lt_of_lt_of_le hlt (Nat.pow_le_pow_right (by decide) hj)

/-- Witness for C9 on the refill path, with stale bits above the 13 buffered ones. -/
theorem result_range_witness :
    demoState.bits_available ≤ 64 ∧ 20 ≤ 64 ∧
    ∃ r t1, theft_random_bits demoEnv demoState 20 = some (r, t1) ∧ r < 2 ^ 20 ∧
      ∀ j, 20 ≤ j → r.testBit j = false :=
  ⟨by decide, by decide, result_range demoEnv demoState 20 (by decide) (by decide)⟩

/-- C10: `theft_random_bits` aborts on its assertion exactly when the requested width
is greater than 64, and returns a value exactly when the width is at most 64, from
every state. -/
theorem abort_iff_too_wide {σ : Type} (E : Env σ) (t : theft σ) (w : Nat) :
    (theft_random_bits E t w = none ↔ 64 < w) ∧
    ((∃ r t1, theft_random_bits E t w = some (r, t1)) ↔ w ≤ 64) := by
  by_cases h : w ≤ 64
  · have h' : ¬ 64 < w := by omega
    simp [theft_random_bits, h, h']
  · have h' : 64 < w := by omega
    simp [theft_random_bits, h, h']

/-! ## Seeding, the seed bits and the buffered count -/

/-- C11: `theft_set_seed` is total and leaves seed field = seed, buffer = seed (the raw
seed), `bits_available = 64` and the Word Source reset for that seed; the state it
leaves does not depend on the prior state. -/
theorem set_seed_postcondition {σ : Type} (E : Env σ) (t : theft σ) (seed : Nat) :
    (theft_set_seed E t seed).seed = seed ∧
    (theft_set_seed E t seed).prng_buf = seed ∧
    (theft_set_seed E t seed).bits_available = 64 ∧
    (theft_set_seed E t seed).mt = E.theft_mt_reset t.mt seed ∧
    ∀ t2 : theft σ, theft_set_seed E t2 seed = theft_set_seed E t seed := by
  refine ⟨rfl, rfl, rfl, rfl, ?_⟩
  intro t2
  simp only [theft_set_seed, E.reset_restarts t2.mt t.mt seed]

theorem le_sum_of_mem (ws : List Nat) (w : Nat) (h : w ∈ ws) : w ≤ ws.sum := by
  induction ws with
  | nil => simp at h
  | cons v vs ih =>
    rcases List.mem_cons.mp h with h1 | h1
    · subst h1; simp
    · have := ih h1
      simp only [List.sum_cons]; omega

theorem take_sum_add_get_le (ws : List Nat) (i : Nat) (h : i < ws.length) :
    (ws.take i).sum + ws.get ⟨i, h⟩ ≤ ws.sum := by
  induction ws generalizing i with
  | nil => simp at h
  | cons v vs ih =>
    cases i with
    | zero => simp
    | succ i =>
      have h1 : i < vs.length := by simpa using h
      have := ih i h1
      simp only [List.take_succ_cons, List.sum_cons, List.get_cons_succ]
      omega

/-- Draws whose widths fit into the buffered bits all take the direct path. -/
theorem draws_direct {σ : Type} (E : Env σ) (ws : List Nat) (t : theft σ)
    (hb : t.bits_available ≤ 64) (hs : ws.sum ≤ t.bits_available) :
    ∃ rs t1, draws E t ws = some (rs, t1) ∧
      t1.bits_available = t.bits_available - ws.sum ∧ t1.mt = t.mt ∧ t1.seed = t.seed ∧
      draws_pulled E t ws = 0 := by
  induction ws generalizing t with
  | nil => exact ⟨[], t, rfl, by simp, rfl, rfl, rfl⟩
  | cons w ws ih =>
    simp only [List.sum_cons] at hs
    have hw : w ≤ t.bits_available := by omega
    have h1 := random_bits_direct E t w hw hb
    obtain ⟨rs, t2, h2, hba, hmt, hseed, hp⟩ := ih
      { t with bits_available := t.bits_available - w, prng_buf := shr64 E t.prng_buf w }
      (by show t.bits_available - w ≤ 64; omega)
      (by show ws.sum ≤ t.bits_available - w; omega)
    refine ⟨(t.prng_buf % 2 ^ w) :: rs, t2, ?_, ?_, hmt, hseed, ?_⟩
    · simp [draws, h1, h2]
    · rw [hba]
      show t.bits_available - w - ws.sum = t.bits_available - (w :: ws).sum
      simp only [List.sum_cons]; omega
    · have n1 : ¬ t.bits_available < w := by omega
      have n2 : w ≤ 64 := by omega
      simp [draws_pulled, words_pulled, n1, n2, h1, hp]

/-- C12: after `theft_set_seed(S)`, draws whose widths sum to at most 64 return the
seed bits, the `i`-th being `(S >> (w1+...+w(i-1))) & (2^wi - 1)`, and pull no word: the
Word Source stays as `reset(S)` left it; a further draw pulls the first word exactly
when it takes the cumulative width above 64. -/
theorem seed_bits_first {σ : Type} (E : Env σ) (t : theft σ) (S : Nat)
    (widths : List Nat) (hsum : widths.sum ≤ 64) :
    ∃ rs t1, draws E (theft_set_seed E t S) widths = some (rs, t1) ∧
      rs.length = widths.length ∧
      (∀ (i : Nat) (h : i < widths.length),
        rs[i]? = some ((S >>> (widths.take i).sum) &&& (2 ^ widths.get ⟨i, h⟩ - 1))) ∧
      t1.mt = E.theft_mt_reset t.mt S ∧
      draws_pulled E (theft_set_seed E t S) widths = 0 ∧
      ∀ w, w ≤ 64 → words_pulled t1 w = if 64 < widths.sum + w then 1 else 0 := by
  have hw : ∀ w ∈ widths, w ≤ 64 := fun w h => le_trans (le_sum_of_mem widths w h) hsum
  obtain ⟨t1, h1, _⟩ := draws_inv E t.mt S widths 0 _ (inv_set_seed E t S) hw
  obtain ⟨rs, t2, h2, hba, hmt, _, hp⟩ := draws_direct E widths (theft_set_seed E t S)
    (Nat.le_refl 64) hsum
  have e := Option.some.inj (h1.symm.trans h2)
  have e2 : t1 = t2 := (Prod.mk.inj e).2
  subst e2
  refine ⟨_, t1, h1, streamSlices_length E t.mt S widths 0, ?_, hmt, hp, ?_⟩
  · intro i h
    rw [streamSlices_get E t.mt S widths 0 i h, Nat.zero_add,
      streamSlice_seed E t.mt S _ _ (le_trans (take_sum_add_get_le widths i h) hsum),
      Nat.and_pow_two_sub_one_eq_mod]
  · intro w hw64
    have hba2 : t1.bits_available = 64 - widths.sum := hba
    simp only [words_pulled, hw64, if_true, hba2]
    by_cases hc : 64 < widths.sum + w
    · have : 64 - widths.sum < w := by omega
      simp [hc, this]
    · have : ¬ 64 - widths.sum < w := by omega
      simp [hc, this]

/-- Witness for C12 at the widths 11, 13, 40. -/
theorem seed_bits_first_witness :
    [11, 13, 40].sum ≤ 64 ∧
    ∃ rs t1, draws demoEnv (theft_set_seed demoEnv demoState 0xabad5eed) [11, 13, 40]
        = some (rs, t1) ∧
      rs.length = [11, 13, 40].length ∧
      (∀ (i : Nat) (h : i < [11, 13, 40].length),
        rs[i]? = some ((0xabad5eed >>> ([11, 13, 40].take i).sum)
          &&& (2 ^ [11, 13, 40].get ⟨i, h⟩ - 1))) ∧
      t1.mt = demoEnv.theft_mt_reset demoState.mt 0xabad5eed ∧
      draws_pulled demoEnv (theft_set_seed demoEnv demoState 0xabad5eed) [11, 13, 40] = 0 ∧
      ∀ w, w ≤ 64 → words_pulled t1 w = if 64 < [11, 13, 40].sum + w then 1 else 0 :=
  ⟨by decide, seed_bits_first demoEnv demoState 0xabad5eed [11, 13, 40] (by decide)⟩

/-- The count of buffered bits stays within 0..64 over one draw. -/
theorem bits_available_step {σ : Type} (E : Env σ) (t : theft σ) (w : Nat)
    (hb : t.bits_available ≤ 64) (hw : w ≤ 64) :
    ∃ r t1, theft_random_bits E t w = some (r, t1) ∧ t1.bits_available ≤ 64 ∧
      64 * words_pulled t w + t.bits_available = w + t1.bits_available := by
  by_cases hd : w ≤ t.bits_available
  · refine ⟨_, _, random_bits_direct E t w hd hb, ?_, ?_⟩
    · show t.bits_available - w ≤ 64
      omega
    · have n1 : ¬ t.bits_available < w := by omega
      show 64 * words_pulled t w + t.bits_available = w + (t.bits_available - w)
      simp only [words_pulled, hw, n1, if_true, if_false]; omega
  · have hr : t.bits_available < w := by omega
    refine ⟨_, _, random_bits_refill E t w hr hw, ?_, ?_⟩
    · show 64 - (w - t.bits_available) ≤ 64
      omega
    · show 64 * words_pulled t w + t.bits_available = w + (64 - (w - t.bits_available))
      simp only [words_pulled, hw, hr, if_true]; omega

/-- C13: `bits_available` is at most 64 after `theft_set_seed` and stays so over every
`theft_random_bits` call with a width up to 64, hence over `theft_random` and
`theft_random_double`; in none of the `uint8_t` subtractions of the call is more
subtracted than is there. -/
theorem bits_available_invariant {σ : Type} (E : Env σ) (t : theft σ) (w : Nat)
    (hb : t.bits_available ≤ 64) (hw : w ≤ 64) :
    (∀ (t0 : theft σ) (S : Nat), (theft_set_seed E t0 S).bits_available ≤ 64) ∧
    (∃ r t1, theft_random_bits E t w = some (r, t1) ∧ t1.bits_available ≤ 64) ∧
    (∃ r t1, theft_random E t = some (r, t1) ∧ t1.bits_available ≤ 64) ∧
    (∀ (δ : Type) (to_double : Nat → δ),
      ∃ d t1, theft_random_double E to_double t = some (d, t1) ∧ t1.bits_available ≤ 64) ∧
    (∀ p ∈ subtractions E t w, p.2 ≤ p.1) := by
  obtain ⟨r, t1, h1, hb1, _⟩ := bits_available_step E t w hb hw
  obtain ⟨r2, t2, h2, hb2, _⟩ := bits_available_step E t 64 hb (Nat.le_refl 64)
  refine ⟨fun _ _ => Nat.le_refl 64, ⟨r, t1, h1, hb1⟩, ⟨r2, t2, h2, hb2⟩, ?_, ?_⟩
  · intro δ to_double
    exact ⟨to_double r2, t2, by simp [theft_random_double, h2], hb2⟩
  · intro p hp
    by_cases hr : t.bits_available < w
    · have e2 : (w + 256 - t.bits_available) % 256 = w - t.bits_available := by omega
      simp only [subtractions, drain, hw, hr, if_true, e2, List.cons_append, List.nil_append,
        List.mem_cons, List.mem_singleton, List.mem_nil_iff, or_false] at hp
      rcases hp with rfl | rfl
      · show t.bits_available ≤ w
        omega
      · show w - t.bits_available ≤ 64
        omega
    · simp only [subtractions, drain, hw, hr, if_true, if_false, List.nil_append,
        List.mem_singleton] at hp
      subst hp
      show w ≤ t.bits_available
      omega

/-- Witness for C13 on the refill path: 13 bits buffered, 20 requested. -/
theorem bits_available_invariant_witness :
    demoState.bits_available ≤ 64 ∧ 20 ≤ 64 ∧
    ((∀ (t0 : theft (Nat × Nat)) (S : Nat), (theft_set_seed demoEnv t0 S).bits_available ≤ 64) ∧
    (∃ r t1, theft_random_bits demoEnv demoState 20 = some (r, t1) ∧ t1.bits_available ≤ 64) ∧
    (∃ r t1, theft_random demoEnv demoState = some (r, t1) ∧ t1.bits_available ≤ 64) ∧
    (∀ (δ : Type) (to_double : Nat → δ),
      ∃ d t1, theft_random_double demoEnv to_double demoState = some (d, t1) ∧
        t1.bits_available ≤ 64) ∧
    (∀ p ∈ subtractions demoEnv demoState 20, p.2 ≤ p.1)) :=
  ⟨by decide, by decide, bits_available_invariant demoEnv demoState 20 (by decide) (by decide)⟩

/-- C14: `theft_random` is `theft_random_bits` with width 64, value and state alike, and
`theft_random_double` is the conversion of the Word Source applied to the value of that
draw, with the state of that draw; from a state with `bits_available <= 64` the draw
returns and consumes exactly 64 bits. -/
theorem accessors_call_through {σ δ : Type} (E : Env σ) (to_double : Nat → δ) (t : theft σ)
    (hb : t.bits_available ≤ 64) :
    theft_random E t = theft_random_bits E t 64 ∧
    theft_random_double E to_double t
      = (theft_random_bits E t 64).map (fun p => (to_double p.1, p.2)) ∧
    ∃ r t1, theft_random_bits E t 64 = some (r, t1) ∧
      theft_random E t = some (r, t1) ∧
      theft_random_double E to_double t = some (to_double r, t1) ∧
      64 * words_pulled t 64 + t.bits_available = 64 + t1.bits_available := by
  obtain ⟨r, t1, h1, _, hacc⟩ := bits_available_step E t 64 hb (Nat.le_refl 64)
  refine ⟨rfl, ?_, r, t1, h1, h1, ?_, hacc⟩
  · simp only [theft_random_double]
    cases theft_random_bits E t 64 with
    | none => rfl
    | some p => rfl
  · simp [theft_random_double, h1]

/-- Witness for C14 with the conversion that keeps the top 53 bits. -/
theorem accessors_call_through_witness :
    demoState.bits_available ≤ 64 ∧
    (theft_random demoEnv demoState = theft_random_bits demoEnv demoState 64 ∧
    theft_random_double demoEnv (fun n => n / 2048) demoState
      = (theft_random_bits demoEnv demoState 64).map (fun p => (p.1 / 2048, p.2)) ∧
    ∃ r t1, theft_random_bits demoEnv demoState 64 = some (r, t1) ∧
      theft_random demoEnv demoState = some (r, t1) ∧
      theft_random_double demoEnv (fun n => n / 2048) demoState = some (r / 2048, t1) ∧
      64 * words_pulled demoState 64 + demoState.bits_available = 64 + t1.bits_available) :=
  ⟨by decide, accessors_call_through demoEnv (fun n => n / 2048) demoState (by decide)⟩

/-! ## The two paths, the shifts and the buffer -/

/-- Every shift of a call has an amount below 64, except when 64 bits are requested
with the buffer full or empty: then line 55 shifts by the full 64. -/
theorem shift_amounts_lt {σ : Type} (E : Env σ) (t : theft σ) (w : Nat)
    (hb : t.bits_available ≤ 64) (hw : w ≤ 64)
    (h : ¬ (w = 64 ∧ (t.bits_available = 0 ∨ t.bits_available = 64))) :
    ∀ a ∈ shift_amounts E t w, a < 64 := by
  intro a ha
  by_cases hr : t.bits_available < w
  · have e1 : (0 + t.bits_available) % 256 = t.bits_available := by omega
    have e2 : (w + 256 - t.bits_available) % 256 = w - t.bits_available := by omega
    have n1 : ¬ t.bits_available = 64 := by omega
    have n2 : ¬ w - t.bits_available = 64 := by omega
    simp only [shift_amounts, drain, mask_shifts, hw, hr, if_true, e1, e2, n1, n2, if_false,
      List.cons_append, List.nil_append, List.mem_cons, List.mem_singleton, List.mem_nil_iff,
      or_false] at ha
    rcases ha with rfl | rfl | rfl | rfl <;> omega
  · have n2 : ¬ w = 64 := by omega
    simp only [shift_amounts, drain, mask_shifts, hw, hr, if_true, n2, if_false,
      List.cons_append, List.nil_append, List.mem_cons, List.mem_singleton, List.mem_nil_iff,
      or_false] at ha
    rcases ha with rfl | rfl | rfl <;> omega

/-- Away from the full-width shift a draw keeps the buffer right-aligned: no bit at or
above `bits_available`. -/
theorem buffer_aligned_step {σ : Type} (E : Env σ) (t : theft σ) (w r : Nat) (t1 : theft σ)
    (hb : t.bits_available ≤ 64) (hw : w ≤ 64)
    (h : ¬ (w = 64 ∧ (t.bits_available = 0 ∨ t.bits_available = 64)))
    (hbuf : t.prng_buf < 2 ^ t.bits_available)
    (hr : theft_random_bits E t w = some (r, t1)) :
    t1.prng_buf < 2 ^ t1.bits_available := by
  have key : ∀ x a k : Nat, x < 2 ^ a → k ≤ a → x >>> k < 2 ^ (a - k) := by
    intro x a k hx hk
    rw [Nat.shiftRight_eq_div_pow, Nat.div_lt_iff_lt_mul (Nat.pos_pow_of_pos k (by decide)),
      ← Nat.pow_add]
    have : a - k + k = a := by omega
    rw [this]; exact hx
  by_cases hd : w ≤ t.bits_available
  · have e := (Prod.mk.inj (Option.some.inj ((random_bits_direct E t w hd hb).symm.trans hr))).2
    subst e
    have hlt : w < 64 := by omega
    show shr64 E t.prng_buf w < 2 ^ (t.bits_available - w)
    simp only [shr64, hlt, if_true]
    exact key _ _ _ hbuf hd
  · have hr2 : t.bits_available < w := by omega
    have e := (Prod.mk.inj (Option.some.inj ((random_bits_refill E t w hr2 hw).symm.trans hr))).2
    subst e
    have hlt : w - t.bits_available < 64 := by omega
    show shr64 E (E.theft_mt_random t.mt).1 (w - t.bits_available)
      < 2 ^ (64 - (w - t.bits_available))
    simp only [shr64, hlt, if_true]
    exact key _ _ _ (E.random_lt t.mt) (by omega)

/-- C15, at the failing input: with the buffer holding the 64 bits of seed 1, the
64-bit draw takes the direct path, returns 1 and leaves `bits_available = 0`, but
line 55 shifts the buffer by the full 64; where the shift count is taken modulo 64 the
buffer keeps the value 1, while `buffer >> 64` read as a number is 0. -/
theorem direct_path_full_shift_keeps_buffer :
    (theft_random_bits zeroEnv (theft_set_seed zeroEnv zeroState 1) 64).map
        (fun p => (p.1, p.2.prng_buf, p.2.bits_available)) = some (1, 1, 0) ∧
    (theft_set_seed zeroEnv zeroState 1).prng_buf >>> 64 = 0 := by
  decide

/-- C16, at the failing input: with an empty buffer and the word 1 pulled, the 64-bit
draw returns 1 and leaves `bits_available = 0`, but line 55 shifts the fresh word by
the full 64; where the shift count is taken modulo 64 the buffer keeps the word 1, while
`W >> (width - d)` read as a number is 0. -/
theorem refill_path_full_shift_keeps_word :
    (theft_random_bits oneEnv zeroState 64).map
        (fun p => (p.1, p.2.prng_buf, p.2.bits_available)) = some (1, 1, 0) ∧
    words_pulled zeroState 64 = 1 ∧
    (oneEnv.theft_mt_random zeroState.mt).1 >>> (64 - zeroState.bits_available) = 0 := by
  decide

/-- C17, at the failing input: `theft_random` right after `theft_set_seed` executes the
shifts `<< 0` and `>>= 64`; the right shift that advances the buffer has the full
amount 64. -/
theorem full_width_shift_executed :
    shift_amounts zeroEnv (theft_set_seed zeroEnv zeroState 1) 64 = [0, 64] ∧
    ¬ (∀ a ∈ shift_amounts zeroEnv (theft_set_seed zeroEnv zeroState 1) 64, a < 64) := by
  decide

/-- C18, at the failing input: after `theft_set_seed(1)` and one 64-bit draw the state
has `bits_available = 0` and, where the shift count is taken modulo 64, buffer 1: a bit
at position 0, not below `2^0`. -/
theorem buffer_stale_after_full_draw :
    ∃ b a, (draws zeroEnv (theft_set_seed zeroEnv zeroState 1) [64]).map
        (fun p => (p.2.prng_buf, p.2.bits_available)) = some (b, a) ∧
      a = 0 ∧ b = 1 ∧ ¬ b < 2 ^ a :=
  ⟨1, 0, by decide, rfl, rfl, by decide⟩

/-- C19: from every state with `bits_available <= 64` a draw of width 0 returns 0,
pulls no word and leaves the whole state (seed, buffer, `bits_available`, Word Source)
as it was. -/
theorem zero_width_noop {σ : Type} (E : Env σ) (t : theft σ) (hb : t.bits_available ≤ 64) :
    theft_random_bits E t 0 = some (0, t) ∧ words_pulled t 0 = 0 ∧
      shift_amounts E t 0 = [0, 0, 0] := by
  refine ⟨?_, ?_, ?_⟩
  · rw [random_bits_direct E t 0 (Nat.zero_le _) hb]
    cases t
    simp [shr64, Nat.mod_one]
  · simp [words_pulled]
  · simp [shift_amounts, drain, mask_shifts]

/-- Witness for C19 with an empty buffer. -/
theorem zero_width_noop_witness :
    demoState2.bits_available ≤ 64 ∧
    (theft_random_bits demoEnv demoState2 0 = some (0, demoState2) ∧
      words_pulled demoState2 0 = 0 ∧ shift_amounts demoEnv demoState2 0 = [0, 0, 0]) :=
  ⟨by decide, zero_width_noop demoEnv demoState2 (by decide)⟩

/-- C20: for `n` in 0..64, `mask n = 2^n - 1`: bit `j` is set exactly when `j < n`;
`mask 0 = 0`, and `mask 64` is the all-ones value, reached without any shift. -/
theorem mask_low_bits (n : Nat) (h : n ≤ 64) :
    mask n = 2 ^ n - 1 ∧ (∀ j, (mask n).testBit j = decide (j < n)) ∧
    mask 0 = 0 ∧ mask 64 = 2 ^ 64 - 1 ∧ mask_shifts 64 = [] ∧
    (∀ a ∈ mask_shifts n, a < 64) := by
  refine ⟨mask_eq n h, ?_, by decide, by decide, by decide, ?_⟩
  · intro j
    rw [mask_eq n h, Nat.testBit_two_pow_sub_one]
  · intro a ha
    by_cases h64 : n = 64
    · simp [mask_shifts, h64] at ha
    · simp only [mask_shifts, h64, if_false, List.mem_singleton] at ha
      omega

/-- Witness for C20 at 11 bits. -/
theorem mask_low_bits_witness :
    11 ≤ 64 ∧
    (mask 11 = 2 ^ 11 - 1 ∧ (∀ j, (mask 11).testBit j = decide (j < 11)) ∧
    mask 0 = 0 ∧ mask 64 = 2 ^ 64 - 1 ∧ mask_shifts 64 = [] ∧
    (∀ a ∈ mask_shifts 11, a < 64)) :=
  ⟨by decide, mask_low_bits 11 (by decide)⟩

end Theft
